import Mathlib

/-!
Shallow embedding of the decentralization-statistics program (src/main.py):
temporal aggregation (granularity), Nakamoto-coefficient point estimate
(compute_nakamoto_coefficient), the binomial-test confidence-range search
(find_nc_range) and the pass-rate evaluator (binom_p), together with proofs
of the specified properties.

Modelling conventions: a date's row of per-entity block counts is a
`List Nat`; a table is the date-ordered list of such rows (plus its date
keys and column labels where those matter).  The exact p-value of scipy's
one-sided binomial test with p = 1/2 is the rational
(number of favourable outcomes) / 2^n; Python's float arithmetic is
modelled by exact rational arithmetic.  The source's unbounded `while`
loops are modelled with an explicit fuel parameter: `none` means the fuel
ran out, and termination of the source loop is the existence of a fuel
making the result `some`.  Python exceptions (ZeroDivisionError) are
modelled as `none`.
-/

namespace NCStats

open List

/-- Descending sort of a row of counts, as `row.sort_values(ascending=False)`
in the source (over `List Nat`, where the tie order among equal values is
immaterial because equal values yield equal lists). -/
def sortDesc (l : List Nat) : List Nat := l.insertionSort (fun a b => a ≥ b)

/-- Sum of the `c` largest entries of a row: `row.nlargest(c).sum()` in the
source.  pandas' nlargest selects nothing for a non-positive `c` and the
whole row for `c` beyond the row length; `Int.toNat` and `List.take` give
exactly this clamping. -/
def topSum (row : List Nat) (c : Int) : Nat := ((sortDesc row).take c.toNat).sum

/-- Number of outcomes of `n` fair coin flips with at least `k` heads. -/
def tailCount (n k : Nat) : Nat := (((List.range (n+1)).drop k).map n.choose).sum

/-- Number of outcomes of `n` fair coin flips with at most `k` heads. -/
def headCount (n k : Nat) : Nat := (((List.range (n+1)).take (k+1)).map n.choose).sum

/-- Exact p-value of `binomtest(k, n, 0.5, alternative='greater')`:
the probability of at least `k` successes among `n` fair trials. -/
def pGreater (n k : Nat) : ℚ := tailCount n k / 2^n

/-- Exact p-value of `binomtest(k, n, 0.5, alternative='less')`:
the probability of at most `k` successes among `n` fair trials. -/
def pLess (n k : Nat) : ℚ := headCount n k / 2^n

/-- Accumulation loop of compute_nakamoto_coefficient (src/main.py lines
39-43): walk the descending-sorted counts, incrementing the candidate
coefficient and the running share, and stop as soon as the share strictly
exceeds 1/2. -/
def ncLoop (total : Nat) : List Nat → Nat → ℚ → Nat
  | [], nc, _ => nc
  | b :: rest, nc, share =>
    let share' := share + (b : ℚ) / total
    if share' > 1/2 then nc + 1 else ncLoop total rest (nc + 1) share'

/-- compute_nakamoto_coefficient (src/main.py lines 31-44): 0 for an
all-zero row, otherwise the accumulation loop over the row sorted in
descending order. -/
def compute_nakamoto_coefficient (row : List Nat) : Nat :=
  let total := row.sum
  if total > 0 then ncLoop total (sortDesc row) 0 0 else 0

/-- compute_nakamoto_coefficients (src/main.py lines 47-56): the point
estimate of every date's row. -/
def compute_nakamoto_coefficients (rows : List (List Nat)) : List Nat :=
  rows.map compute_nakamoto_coefficient

/-- Upper-bound while loop of find_nc_range (src/main.py lines 83-92),
with explicit fuel.  State: candidate coefficient `coeffp`, the last
computed `successes`, and the last computed p-value `p`.  While `p > alpha`
the candidate is incremented, `successes` recomputed as the sum of the new
top-`coeffp` counts, and the 'greater' test rerun; on exit the pair
(candidate, successes) is returned. -/
def upperLoop (row : List Nat) (total : Nat) (alpha : ℚ) :
    Nat → Int → Nat → ℚ → Option (Int × Nat)
  | 0, coeffp, successes, p =>
      if p > alpha then none else some (coeffp, successes)
  | fuel + 1, coeffp, successes, p =>
      if p > alpha then
        let s := topSum row (coeffp + 1)
        upperLoop row total alpha fuel (coeffp + 1) s (pGreater total s)
      else some (coeffp, successes)

/-- Upper-bound phase of find_nc_range (src/main.py lines 75-93): the
initial 'greater' test at the point estimate, then, only when it fails
(`p > alpha`), the while loop followed by the `coeffp -= 1` step-back.
The returned pair carries the final `coeffp` and the final value of the
`successes` variable, which the source then feeds to the first 'less'
test. -/
def upperPhase (row : List Nat) (total coeff : Nat) (alpha : ℚ) (fuel : Nat) :
    Option (Int × Nat) :=
  let s0 := topSum row coeff
  let p0 := pGreater total s0
  if p0 > alpha then
    (upperLoop row total alpha fuel coeff s0 p0).map (fun r => (r.1 - 1, r.2))
  else some ((coeff : Int), s0)

/-- Lower-bound while loop of find_nc_range (src/main.py lines 101-110),
with explicit fuel: while `q > alpha` the candidate is decremented and the
'less' test rerun on the new top-`coeffq` sum. -/
def lowerLoop (row : List Nat) (total : Nat) (alpha : ℚ) :
    Nat → Int → ℚ → Option Int
  | 0, coeffq, q => if q > alpha then none else some coeffq
  | fuel + 1, coeffq, q =>
      if q > alpha then
        lowerLoop row total alpha fuel (coeffq - 1) (pLess total (topSum row (coeffq - 1)))
      else some coeffq

/-- Lower-bound phase of find_nc_range (src/main.py lines 94-111): the
initial 'less' test with `k = sFromUpper`, the `successes` value left over
from the upper phase; when it fails, the while loop followed by the
`coeffq += 1` step-forward. -/
def lowerPhase (row : List Nat) (total coeff : Nat) (alpha : ℚ) (sFromUpper : Nat)
    (fuel : Nat) : Option Int :=
  let q0 := pLess total sFromUpper
  if q0 > alpha then
    (lowerLoop row total alpha fuel coeff q0).map (fun c => c + 1)
  else some (coeff : Int)

/-- Per-date body of find_nc_range (src/main.py lines 70-113): for a date
with positive total run the upper phase, feed its leftover `successes` to
the lower phase, and return (lower, upper); for a zero total both bounds
are the given coefficient. -/
def ncRangeDate (row : List Nat) (coeff : Nat) (alpha : ℚ) (fuel : Nat) :
    Option (Int × Int) :=
  let total := row.sum
  if total > 0 then
    match upperPhase row total coeff alpha fuel with
    | none => none
    | some (coeffp, successes) =>
      match lowerPhase row total coeff alpha successes fuel with
      | none => none
      | some coeffq => some (coeffq, coeffp)
  else some ((coeff : Int), (coeff : Int))

/-- find_nc_range (src/main.py lines 59-115): one (lower, upper) pair per
date,  pairing each date's row with its entry of the coefficient series;
a missing coefficient entry is the source's KeyError. -/
def find_nc_range : List (List Nat) → List Nat → ℚ → Nat → Option (List (Int × Int))
  | [], _, _, _ => some []
  | row :: rest, coeff :: cs, alpha, fuel =>
    match ncRangeDate row coeff alpha fuel, find_nc_range rest cs alpha fuel with
    | some r, some rs => some (r :: rs)
    | _, _ => none
  | _ :: _, [], _, _ => none

/-- binom_p (src/main.py lines 118-140): across the dates, count a date
with nonzero total as tested, and as passed when the 'greater' p-value at
the date's coefficient is strictly below alpha; the result is
passes/total*100.  The unguarded Python division is modelled as `none`
when no date was tested (ZeroDivisionError). -/
def binom_p (rows : List (List Nat)) (ncs : List Nat) (alpha : ℚ) : Option ℚ :=
  let final := (rows.zip ncs).foldl
    (fun acc x =>
      if x.1.sum ≠ 0 then
        (acc.1 + (if pGreater x.1.sum (topSum x.1 (x.2 : Int)) < alpha then 1 else 0), acc.2 + 1)
      else acc)
    ((0, 0) : Nat × Nat)
  if final.2 = 0 then none else some ((final.1 : ℚ) / (final.2 : ℚ) * 100)

/-- Count Table of the data model: date keys, entity column labels, and
one row of per-entity counts per date. -/
structure CountTable where
  cols : List String
  dates : List Nat
  rows : List (List Nat)
deriving DecidableEq

/-- Resolution of one Python slice index against a sequence of length `L`:
a negative index counts from the end (clamped below at 0), a non-negative
one is clamped above at `L`. -/
def pyResolve (L : Nat) (x : Int) : Nat :=
  if x < 0 then (x + L).toNat else min x.toNat L

/-- Python list slice `l[s:e]`: the elements with position `j` satisfying
`resolve s ≤ j < resolve e`. -/
def pySlice {α : Type} (l : List α) (s e : Int) : List α :=
  (l.drop (pyResolve l.length s)).take (pyResolve l.length e - pyResolve l.length s)

/-- Element-wise sum of a list of rows, as `[sum(x) for x in zip(*rows)]`
in the source: `zip` truncates to the shortest row and yields nothing when
given no rows at all. -/
def zipSum : List (List Nat) → List Nat
  | [] => []
  | [r] => r
  | r :: rs => List.zipWith (fun a b => a + b) r (zipSum rs)

/-- granularity (src/main.py lines 5-28): sort the (date, row) pairs by
date, then emit for every index `i` the element-wise sum of the slice
`lister[i-step : i+(num-step)]` with `step = num / 2`, keeping the date
keys and the column labels. -/
def granularity (t : CountTable) (num : Nat) : CountTable :=
  let pairs := (t.dates.zip t.rows).insertionSort (fun a b => a.1 ≤ b.1)
  let lister := pairs.map Prod.snd
  let step := num / 2
  { cols := t.cols
    dates := pairs.map Prod.fst
    rows := (List.range lister.length).map (fun i : Nat =>
      zipSum (pySlice lister ((i : Int) - step) ((i : Int) + ((num : Int) - step)))) }

/-- Spec-side description of one aggregated row (spec §4.1, for comparison
with the source-derived `granularity`): the element-wise sum of the input
rows whose index `j` lies in the half-open range `[i-step, i+(num-step))`,
where a negative start position counts from the end of the sequence. -/
def specWindowSum (rows : List (List Nat)) (num i : Nat) : List Nat :=
  let L := rows.length
  let step := num / 2
  let start : Int := if (i : Int) - step < 0 then (i : Int) - step + L else (i : Int) - step
  let stop : Int := (i : Int) + ((num : Int) - step)
  zipSum (((List.range L).filter
      (fun j : Nat => decide (start ≤ (j : Int)) && decide ((j : Int) < stop))).map
    (fun j => rows.getD j []))

/-! ### Basic facts about the descending sort and the running share -/

lemma sortDesc_perm (l : List Nat) : sortDesc l ~ l :=
  List.perm_insertionSort _ l

lemma sortDesc_sum (l : List Nat) : (sortDesc l).sum = l.sum :=
  (sortDesc_perm l).sum_eq

lemma sortDesc_length (l : List Nat) : (sortDesc l).length = l.length :=
  (sortDesc_perm l).length_eq

lemma sortDesc_sorted (l : List Nat) : (sortDesc l).Sorted (fun a b => a ≥ b) :=
  List.sorted_insertionSort _ l

lemma sortDesc_eq_of_perm {l₁ l₂ : List Nat} (h : l₁ ~ l₂) : sortDesc l₁ = sortDesc l₂ :=
  List.eq_of_perm_of_sorted ((sortDesc_perm l₁).trans (h.trans (sortDesc_perm l₂).symm))
    (sortDesc_sorted l₁) (sortDesc_sorted l₂)

lemma half_lt_div_iff (x total : Nat) (h : 0 < total) :
    (1 : ℚ)/2 < (x : ℚ) / total ↔ total < 2 * x := by
  have ht : (0 : ℚ) < total := by exact_mod_cast h
  rw [div_lt_div_iff₀ (by norm_num) ht, one_mul]
  norm_cast
  constructor <;> intro h' <;> omega

/-- Behaviour of the accumulation loop: started with a not-yet-majority
accumulated count whose remaining elements would reach a majority, it
stops after `m ≥ 1` further elements, exactly at the first index where
the accumulated count reaches a strict majority. -/
lemma ncLoop_spec (total : Nat) (ht : 0 < total) :
    ∀ (l : List Nat) (acc k : Nat), 2 * acc ≤ total → total < 2 * (acc + l.sum) →
    ∃ m, ncLoop total l k ((acc : ℚ)/total) = k + m ∧ 1 ≤ m ∧ m ≤ l.length ∧
      total < 2 * (acc + (l.take m).sum) ∧ ∀ j < m, 2 * (acc + (l.take j).sum) ≤ total := by
  intro l
  induction l with
  | nil => intro acc k h1 h2; simp at h2; omega
  | cons b rest ih =>
    intro acc k h1 h2
    have hshare : (acc : ℚ)/total + (b : ℚ)/total = ((acc + b : Nat) : ℚ)/total := by
      rw [div_add_div_same]; push_cast; ring_nf
    have hcond : ((acc : ℚ)/total + (b : ℚ)/total > 1/2) ↔ total < 2 * (acc + b) := by
      rw [hshare]; exact half_lt_div_iff _ _ ht
    by_cases hb : total < 2 * (acc + b)
    · refine ⟨1, ?_, le_refl 1, by simp, by simpa using hb, ?_⟩
      · simp only [ncLoop]
        rw [if_pos (hcond.mpr hb)]
      · intro j hj
        interval_cases j
        simpa using h1
    · have hb' : 2 * (acc + b) ≤ total := by omega
      have h2' : total < 2 * ((acc + b) + rest.sum) := by
        simp only [List.sum_cons] at h2; omega
      obtain ⟨m, hm, hm1, hmlen, hmmaj, hmmin⟩ := ih (acc + b) (k + 1) hb' h2'
      refine ⟨m + 1, ?_, by omega, by simp; omega, ?_, ?_⟩
      · simp only [ncLoop]
        rw [if_neg (fun hc => hb (hcond.mp hc)), hshare, hm]
        omega
      · simpa [List.sum_cons] using by
          have := hmmaj; simpa [Nat.add_assoc] using this
      · intro j hj
        match j with
        | 0 => simpa using h1
        | j' + 1 =>
          have := hmmin j' (by omega)
          simpa [Nat.add_assoc] using this

/-- Claim C2: for a row with positive total, compute_nakamoto_coefficient
returns the minimal number of entities whose accumulated share of the
descending-sorted counts strictly exceeds 1/2: the share of the top
`nc` entities exceeds 1/2 and the share of any smaller count of top
entities does not. -/
theorem claim_C2_nakamoto_minimal (row : List Nat) (h : 0 < row.sum) :
    (1 : ℚ)/2 < (topSum row (compute_nakamoto_coefficient row : Int) : ℚ) / row.sum ∧
    ∀ k : Nat, k < compute_nakamoto_coefficient row →
      ¬ ((1 : ℚ)/2 < (topSum row (k : Int) : ℚ) / row.sum) := by
  have hloop : compute_nakamoto_coefficient row = ncLoop row.sum (sortDesc row) 0 0 := by
    simp [compute_nakamoto_coefficient, h]
  have hz : (0 : ℚ) = ((0 : Nat) : ℚ)/row.sum := by simp
  obtain ⟨m, hm, hm1, hmlen, hmmaj, hmmin⟩ :=
    ncLoop_spec row.sum h (sortDesc row) 0 0 (by omega)
      (by rw [sortDesc_sum]; omega)
  have hnc : compute_nakamoto_coefficient row = m := by
    rw [hloop, hz, hm]; omega
  constructor
  · rw [half_lt_div_iff _ _ h, hnc]
    simpa [topSum, Int.toNat_natCast] using hmmaj
  · intro k hk
    rw [half_lt_div_iff _ _ h]
    have := hmmin k (by omega)
    simp only [topSum, Int.toNat_natCast]
    omega

/-- Claim C2 witness at the spec's example row [10, 10, 10, 10, 10]. -/
theorem claim_C2_nakamoto_minimal_witness :
    compute_nakamoto_coefficient [10, 10, 10, 10, 10] = 3 ∧
    ((1 : ℚ)/2 < (topSum [10, 10, 10, 10, 10] (compute_nakamoto_coefficient [10, 10, 10, 10, 10] : Int) : ℚ) / ([10, 10, 10, 10, 10] : List Nat).sum ∧
     ∀ k : Nat, k < compute_nakamoto_coefficient [10, 10, 10, 10, 10] →
      ¬ ((1 : ℚ)/2 < (topSum [10, 10, 10, 10, 10] (k : Int) : ℚ) / ([10, 10, 10, 10, 10] : List Nat).sum)) := by
  constructor
  · norm_num [compute_nakamoto_coefficient, sortDesc, ncLoop,
      List.insertionSort, List.orderedInsert]
  · exact claim_C2_nakamoto_minimal [10, 10, 10, 10, 10] (by norm_num)

/-- Claim C3: the point estimate is zero exactly for a zero-total row. -/
theorem claim_C3_zero_iff (row : List Nat) :
    compute_nakamoto_coefficient row = 0 ↔ row.sum = 0 := by
  constructor
  · intro h0
    by_contra hne
    have h : 0 < row.sum := Nat.pos_of_ne_zero hne
    obtain ⟨m, hm, hm1, _, _, _⟩ :=
      ncLoop_spec row.sum h (sortDesc row) 0 0 (by omega)
        (by rw [sortDesc_sum]; omega)
    have hloop : compute_nakamoto_coefficient row = ncLoop row.sum (sortDesc row) 0 0 := by
      simp [compute_nakamoto_coefficient, h]
    have hz : (0 : ℚ) = ((0 : Nat) : ℚ)/row.sum := by simp
    rw [hloop, hz, hm] at h0
    omega
  · intro h0
    simp [compute_nakamoto_coefficient, h0]

/-- Claim C10: the point estimate depends only on the multiset of counts,
so permuting a row (in particular reordering tied entities) never changes
the coefficient. -/
theorem claim_C10_perm_invariant {l₁ l₂ : List Nat} (h : l₁ ~ l₂) :
    compute_nakamoto_coefficient l₁ = compute_nakamoto_coefficient l₂ := by
  unfold compute_nakamoto_coefficient
  rw [h.sum_eq, sortDesc_eq_of_perm h]

/-- Claim C10 witness: a concrete permuted pair. -/
theorem claim_C10_perm_invariant_witness :
    ([4, 1, 2, 2] : List Nat) ~ [2, 2, 4, 1] ∧
    compute_nakamoto_coefficient [4, 1, 2, 2] = compute_nakamoto_coefficient [2, 2, 4, 1] :=
  ⟨by decide, claim_C10_perm_invariant (by decide)⟩

/-! ### Pass-rate evaluator -/

/-- Number of dates with nonzero total. -/
def nzCount (rows : List (List Nat)) : Nat :=
  rows.countP (fun row => decide (row.sum ≠ 0))

/-- Number of dates with nonzero total whose 'greater' test at the point
estimate has p-value strictly below alpha. -/
def passCount (rows : List (List Nat)) (alpha : ℚ) : Nat :=
  rows.countP (fun row => decide (row.sum ≠ 0) &&
    decide (pGreater row.sum (topSum row (compute_nakamoto_coefficient row : Int)) < alpha))

lemma binom_p_foldl (alpha : ℚ) :
    ∀ (rows : List (List Nat)) (p t : Nat),
    (rows.zip (compute_nakamoto_coefficients rows)).foldl
      (fun acc x =>
        if x.1.sum ≠ 0 then
          (acc.1 + (if pGreater x.1.sum (topSum x.1 (x.2 : Int)) < alpha then 1 else 0),
            acc.2 + 1)
        else acc)
      (p, t) = (p + passCount rows alpha, t + nzCount rows) := by
  intro rows
  induction rows with
  | nil => intro p t; simp [passCount, nzCount, compute_nakamoto_coefficients]
  | cons r rest ih =>
    intro p t
    simp only [compute_nakamoto_coefficients, List.map_cons, List.zip_cons_cons,
      List.foldl_cons] at ih ⊢
    by_cases hz : r.sum ≠ 0
    · have hnzr : (fun row : List Nat => decide (row.sum ≠ 0)) r = true := by
        simp [hz]
      by_cases hp : pGreater r.sum (topSum r (compute_nakamoto_coefficient r : Int)) < alpha
      · have hpassr : (fun row : List Nat => decide (row.sum ≠ 0) &&
            decide (pGreater row.sum
              (topSum row (compute_nakamoto_coefficient row : Int)) < alpha)) r = true := by
          simp [hz, hp]
        rw [if_pos hz, if_pos hp, ih (p + 1) (t + 1)]
        simp [passCount, nzCount, List.countP_cons, hz, hp, Prod.ext_iff]
        omega
      · have hpassr : (fun row : List Nat => decide (row.sum ≠ 0) &&
            decide (pGreater row.sum
              (topSum row (compute_nakamoto_coefficient row : Int)) < alpha)) r = false := by
          simp [hz, hp]
        rw [if_pos hz, if_neg hp, ih (p + 0) (t + 1)]
        simp [passCount, nzCount, List.countP_cons, hz, hp, Prod.ext_iff]
        omega
    · have hnzr : (fun row : List Nat => decide (row.sum ≠ 0)) r = false := by
        simp only [ne_eq, Decidable.not_not] at hz
        simp [hz]
      have hpassr : (fun row : List Nat => decide (row.sum ≠ 0) &&
          decide (pGreater row.sum
            (topSum row (compute_nakamoto_coefficient row : Int)) < alpha)) r = false := by
        simp [hnzr]
      rw [if_neg hz, ih p t]
      simp only [ne_eq, Decidable.not_not] at hz
      simp [passCount, nzCount, List.countP_cons, hz, Prod.ext_iff]

/-- Claim C6: with at least one nonzero-total date, binom_p returns
100 × passes / (number of nonzero-total dates), where a nonzero-total date
passes exactly when its 'greater' p-value at the point estimate is
strictly below alpha; zero-total dates count in neither number, and the
result lies in [0, 100]. -/
theorem claim_C6_pass_rate (rows : List (List Nat)) (alpha : ℚ)
    (h : ∃ row ∈ rows, row.sum ≠ 0) :
    binom_p rows (compute_nakamoto_coefficients rows) alpha =
      some (100 * (passCount rows alpha : ℚ) / nzCount rows) ∧
    0 ≤ 100 * (passCount rows alpha : ℚ) / nzCount rows ∧
    100 * (passCount rows alpha : ℚ) / nzCount rows ≤ 100 := by
  have hnz : 0 < nzCount rows := by
    rw [nzCount, List.countP_pos_iff]
    obtain ⟨row, hrow, hs⟩ := h
    exact ⟨row, hrow, by simpa using hs⟩
  have hle : passCount rows alpha ≤ nzCount rows := by
    apply List.countP_mono_left
    intro x _ hx
    simp only [Bool.and_eq_true] at hx
    exact hx.1
  have hnzq : (0 : ℚ) < (nzCount rows : ℚ) := by exact_mod_cast hnz
  refine ⟨?_, ?_, ?_⟩
  · rw [binom_p]
    rw [binom_p_foldl alpha rows 0 0]
    simp only [Nat.zero_add]
    rw [if_neg (by omega)]
    congr 1
    field_simp
    ring
  · positivity
  · rw [div_le_iff₀ hnzq]
    have : (passCount rows alpha : ℚ) ≤ (nzCount rows : ℚ) := by exact_mod_cast hle
    linarith

/-- Claim C6 witness: a table with one nonzero-total monopoly date
([100]) and one zero-total date; the monopoly date passes, the zero date
is excluded, so the rate is 100. -/
theorem claim_C6_pass_rate_witness :
    (∃ row ∈ [[100], [0]], List.sum row ≠ 0) ∧
    (binom_p [[100], [0]] (compute_nakamoto_coefficients [[100], [0]]) (1/20) =
      some (100 * (passCount [[100], [0]] (1/20) : ℚ) / nzCount [[100], [0]]) ∧
    0 ≤ 100 * (passCount [[100], [0]] (1/20) : ℚ) / nzCount [[100], [0]] ∧
    100 * (passCount [[100], [0]] (1/20) : ℚ) / nzCount [[100], [0]] ≤ 100) :=
  ⟨⟨[100], by norm_num⟩, claim_C6_pass_rate [[100], [0]] (1/20) ⟨[100], by norm_num⟩⟩

/-- Claim C7: on the all-zero dataset the source's pass-rate computation
does not signal a defined "undefined" result; it divides by zero (in the
model: the ZeroDivisionError case `none`). -/
theorem claim_C7_all_zero_divides_by_zero :
    binom_p [[0, 0], [0, 0]] (compute_nakamoto_coefficients [[0, 0], [0, 0]]) (1/20) = none := by
  rfl

/-! ### Confidence range search: exit-state invariants -/

lemma upperLoop_some (row : List Nat) (total : Nat) (alpha : ℚ) :
    ∀ (fuel : Nat) (cp : Int) (s : Nat) (p : ℚ) (c : Int) (s' : Nat),
    upperLoop row total alpha fuel cp s p = some (c, s') →
    cp ≤ c ∧ (p > alpha → cp + 1 ≤ c ∧ s' = topSum row c) ∧
      (¬ p > alpha → c = cp ∧ s' = s) := by
  intro fuel
  induction fuel with
  | zero =>
    intro cp s p c s' h
    by_cases hp : p > alpha
    · simp [upperLoop, hp] at h
    · simp [upperLoop, hp] at h
      exact ⟨le_of_eq h.1, fun hc => absurd hc hp, fun _ => ⟨h.1.symm, h.2.symm⟩⟩
  | succ fuel ih =>
    intro cp s p c s' h
    by_cases hp : p > alpha
    · simp only [upperLoop] at h
      rw [if_pos hp] at h
      obtain ⟨h1, h2, h3⟩ :=
        ih (cp + 1) (topSum row (cp + 1)) (pGreater total (topSum row (cp + 1))) c s' h
      refine ⟨by omega, fun _ => ⟨by omega, ?_⟩, fun hc => absurd hp hc⟩
      by_cases hp2 : pGreater total (topSum row (cp + 1)) > alpha
      · exact (h2 hp2).2
      · obtain ⟨hc, hs⟩ := h3 hp2
        rw [hs, hc]
    · simp only [upperLoop] at h
      rw [if_neg hp] at h
      simp only [Option.some.injEq, Prod.mk.injEq] at h
      exact ⟨le_of_eq h.1, fun hc => absurd hc hp, fun _ => ⟨h.1.symm, h.2.symm⟩⟩

lemma lowerLoop_some (row : List Nat) (total : Nat) (alpha : ℚ) :
    ∀ (fuel : Nat) (cq : Int) (q : ℚ) (c : Int),
    lowerLoop row total alpha fuel cq q = some c →
    c ≤ cq ∧ (q > alpha → c ≤ cq - 1) := by
  intro fuel
  induction fuel with
  | zero =>
    intro cq q c h
    by_cases hq : q > alpha
    · simp [lowerLoop, hq] at h
    · simp [lowerLoop, hq] at h
      exact ⟨le_of_eq h.symm, fun hc => absurd hc hq⟩
  | succ fuel ih =>
    intro cq q c h
    by_cases hq : q > alpha
    · simp only [lowerLoop] at h
      rw [if_pos hq] at h
      obtain ⟨h1, _⟩ := ih (cq - 1) (pLess total (topSum row (cq - 1))) c h
      exact ⟨by omega, fun _ => h1⟩
    · simp only [lowerLoop] at h
      rw [if_neg hq] at h
      simp only [Option.some.injEq] at h
      exact ⟨le_of_eq h.symm, fun hc => absurd hc hq⟩

/-- Exit state of the upper-bound phase: the final candidate is at least
the point estimate, and the final `successes` value corresponds to the
point estimate when the initial test already passed, and otherwise to
the candidate one above the returned upper bound (the last one the loop
tested before stepping back). -/
lemma upperPhase_some (row : List Nat) (total coeff : Nat) (alpha : ℚ) (fuel : Nat)
    (u : Int) (s : Nat)
    (h : upperPhase row total coeff alpha fuel = some (u, s)) :
    (coeff : Int) ≤ u ∧
    s = topSum row
      (if pGreater total (topSum row (coeff : Int)) > alpha then u + 1 else (coeff : Int)) := by
  by_cases hp0 : pGreater total (topSum row (coeff : Int)) > alpha
  · simp only [upperPhase] at h
    rw [if_pos hp0] at h
    rw [if_pos hp0]
    cases hU : upperLoop row total alpha fuel (coeff : Int) (topSum row (coeff : Int))
        (pGreater total (topSum row (coeff : Int))) with
    | none => rw [hU] at h; simp at h
    | some r =>
      obtain ⟨c, s2⟩ := r
      rw [hU] at h
      simp at h
      obtain ⟨h1, h2, _⟩ := upperLoop_some row total alpha fuel (coeff : Int)
        (topSum row (coeff : Int)) (pGreater total (topSum row (coeff : Int))) c s2 hU
      obtain ⟨hc1, hs2⟩ := h2 hp0
      obtain ⟨hu, hs⟩ := h
      constructor
      · omega
      · rw [← hs, hs2]
        congr 1
        omega
  · simp only [upperPhase] at h
    rw [if_neg hp0] at h
    simp only [Option.some.injEq, Prod.mk.injEq] at h
    rw [if_neg hp0]
    exact ⟨le_of_eq h.1, h.2.symm⟩

lemma lowerPhase_some (row : List Nat) (total coeff : Nat) (alpha : ℚ) (sU : Nat)
    (fuel : Nat) (lo : Int)
    (h : lowerPhase row total coeff alpha sU fuel = some lo) :
    lo ≤ (coeff : Int) := by
  by_cases hq0 : pLess total sU > alpha
  · simp only [lowerPhase] at h
    rw [if_pos hq0] at h
    cases hL : lowerLoop row total alpha fuel (coeff : Int) (pLess total sU) with
    | none => rw [hL] at h; simp at h
    | some c =>
      rw [hL] at h
      simp at h
      obtain ⟨_, h2⟩ := lowerLoop_some row total alpha fuel (coeff : Int) (pLess total sU) c hL
      have := h2 hq0
      omega
  · simp only [lowerPhase] at h
    rw [if_neg hq0] at h
    simp only [Option.some.injEq] at h
    omega

/-- Per-date range bounds: whenever the per-date search returns a pair,
the supplied coefficient lies between its components. -/
lemma ncRangeDate_bounds (row : List Nat) (coeff : Nat) (alpha : ℚ) (fuel : Nat)
    (lo up : Int) (h : ncRangeDate row coeff alpha fuel = some (lo, up)) :
    lo ≤ (coeff : Int) ∧ (coeff : Int) ≤ up := by
  simp only [ncRangeDate] at h
  split at h
  · split at h
    · exact absurd h (by simp)
    · rename_i ht coeffp successes hU
      split at h
      · exact absurd h (by simp)
      · rename_i coeffq hL
        simp only [Option.some.injEq, Prod.mk.injEq] at h
        obtain ⟨hq, hp⟩ := h
        obtain ⟨hcu, _⟩ := upperPhase_some row row.sum coeff alpha fuel coeffp successes hU
        have hcl := lowerPhase_some row row.sum coeff alpha successes fuel coeffq hL
        omega
  · simp only [Option.some.injEq, Prod.mk.injEq] at h
    omega

/-- Per-index reading of a successful find_nc_range run. -/
lemma find_nc_range_index :
    ∀ (rows : List (List Nat)) (ncs : List Nat) (alpha : ℚ) (fuel : Nat)
      (ranges : List (Int × Int)),
    find_nc_range rows ncs alpha fuel = some ranges →
    ∀ i, i < rows.length →
      ncRangeDate (rows.getD i []) (ncs.getD i 0) alpha fuel = some (ranges.getD i (0, 0)) := by
  intro rows
  induction rows with
  | nil => intro ncs alpha fuel ranges h i hi; simp at hi
  | cons row rest ih =>
    intro ncs alpha fuel ranges h i hi
    cases ncs with
    | nil => simp [find_nc_range] at h
    | cons c cs =>
      simp only [find_nc_range] at h
      cases hD : ncRangeDate row c alpha fuel with
      | none => rw [hD] at h; simp at h
      | some r =>
        cases hR : find_nc_range rest cs alpha fuel with
        | none => rw [hD, hR] at h; simp at h
        | some rs =>
          rw [hD, hR] at h
          simp only [Option.some.injEq] at h
          subst h
          match i with
          | 0 => simpa using hD
          | i + 1 =>
            simpa using ih cs alpha fuel rs hR i (by simpa using hi)

/-- Claim C1: whenever find_nc_range (run on a table together with its
compute_nakamoto_coefficient series) returns a range list, each date's
(lower, upper) pair brackets that date's coefficient. -/
theorem claim_C1_range_brackets (rows : List (List Nat)) (alpha : ℚ) (fuel : Nat)
    (ranges : List (Int × Int))
    (h : find_nc_range rows (compute_nakamoto_coefficients rows) alpha fuel = some ranges)
    (i : Nat) (hi : i < rows.length) :
    (ranges.getD i (0, 0)).1 ≤ (compute_nakamoto_coefficient (rows.getD i []) : Int) ∧
    (compute_nakamoto_coefficient (rows.getD i []) : Int) ≤ (ranges.getD i (0, 0)).2 := by
  have hidx := find_nc_range_index rows (compute_nakamoto_coefficients rows) alpha fuel
    ranges h i hi
  have hnc : (compute_nakamoto_coefficients rows).getD i 0 =
      compute_nakamoto_coefficient (rows.getD i []) := by
    rw [compute_nakamoto_coefficients, List.getD_eq_getElem _ _ (by simpa using hi),
      List.getD_eq_getElem _ _ hi, List.getElem_map]
  rw [hnc] at hidx
  exact ncRangeDate_bounds _ _ _ _ _ _ (by
    rw [← Prod.mk.eta (p := (ranges.getD i (0, 0)))] at hidx
    exact hidx)

/-! ### Confidence range search: termination analysis -/

lemma topSum_of_le (row : List Nat) (c : Int) (h : (row.length : Int) ≤ c) :
    topSum row c = row.sum := by
  rw [topSum, List.take_of_length_le (by rw [sortDesc_length]; omega), sortDesc_sum]

lemma topSum_nonpos (row : List Nat) (c : Int) (h : c ≤ 0) : topSum row c = 0 := by
  rw [topSum, show c.toNat = 0 from by omega]
  simp

lemma tailCount_self (n : Nat) : tailCount n n = 1 := by
  have h1 : (List.range (n+1)).drop n = [n] := by
    rw [List.range_succ]
    have := List.drop_left (List.range n) [n]
    rwa [List.length_range] at this
  rw [tailCount, h1]
  simp

lemma headCount_zero (n : Nat) : headCount n 0 = 1 := by
  have h1 : (List.range (n+1)).take 1 = [0] := by
    rw [List.range_succ_eq_map]
    simp
  rw [headCount, h1]
  simp

lemma pGreater_full (n : Nat) : pGreater n n = 1/2^n := by
  rw [pGreater, tailCount_self]
  norm_num

lemma pLess_bottom (n : Nat) : pLess n 0 = 1/2^n := by
  rw [pLess, headCount_zero]
  norm_num

lemma upperLoop_mono (row : List Nat) (total : Nat) (alpha : ℚ) :
    ∀ (fuel fuel' : Nat) (cp : Int) (s : Nat) (p : ℚ) (res : Int × Nat), fuel ≤ fuel' →
    upperLoop row total alpha fuel cp s p = some res →
    upperLoop row total alpha fuel' cp s p = some res := by
  intro fuel
  induction fuel with
  | zero =>
    intro fuel' cp s p res hle h
    by_cases hp : p > alpha
    · simp [upperLoop, hp] at h
    · simp only [upperLoop, if_neg hp] at h
      cases fuel' with
      | zero => simpa [upperLoop, hp] using h
      | succ f => simpa [upperLoop, hp] using h
  | succ fuel ih =>
    intro fuel' cp s p res hle h
    by_cases hp : p > alpha
    · obtain ⟨f, rfl⟩ : ∃ f, fuel' = f + 1 := ⟨fuel' - 1, by omega⟩
      simp only [upperLoop, if_pos hp] at h ⊢
      exact ih f _ _ _ _ (by omega) h
    · simp only [upperLoop, if_neg hp] at h
      cases fuel' with
      | zero => simpa [upperLoop, hp] using h
      | succ f => simpa [upperLoop, hp] using h

lemma lowerLoop_mono (row : List Nat) (total : Nat) (alpha : ℚ) :
    ∀ (fuel fuel' : Nat) (cq : Int) (q : ℚ) (res : Int), fuel ≤ fuel' →
    lowerLoop row total alpha fuel cq q = some res →
    lowerLoop row total alpha fuel' cq q = some res := by
  intro fuel
  induction fuel with
  | zero =>
    intro fuel' cq q res hle h
    by_cases hq : q > alpha
    · simp [lowerLoop, hq] at h
    · simp only [lowerLoop, if_neg hq] at h
      cases fuel' with
      | zero => simpa [lowerLoop, hq] using h
      | succ f => simpa [lowerLoop, hq] using h
  | succ fuel ih =>
    intro fuel' cq q res hle h
    by_cases hq : q > alpha
    · obtain ⟨f, rfl⟩ : ∃ f, fuel' = f + 1 := ⟨fuel' - 1, by omega⟩
      simp only [lowerLoop, if_pos hq] at h ⊢
      exact ih f _ _ _ (by omega) h
    · simp only [lowerLoop, if_neg hq] at h
      cases fuel' with
      | zero => simpa [lowerLoop, hq] using h
      | succ f => simpa [lowerLoop, hq] using h

lemma upperPhase_mono (row : List Nat) (total coeff : Nat) (alpha : ℚ)
    (fuel fuel' : Nat) (res : Int × Nat) (hle : fuel ≤ fuel')
    (h : upperPhase row total coeff alpha fuel = some res) :
    upperPhase row total coeff alpha fuel' = some res := by
  by_cases hp0 : pGreater total (topSum row (coeff : Int)) > alpha
  · simp only [upperPhase, if_pos hp0] at h ⊢
    cases hU : upperLoop row total alpha fuel (coeff : Int) (topSum row (coeff : Int))
        (pGreater total (topSum row (coeff : Int))) with
    | none => rw [hU] at h; simp at h
    | some r =>
      rw [hU] at h
      rw [upperLoop_mono row total alpha fuel fuel' _ _ _ r hle hU]
      exact h
  · simp only [upperPhase, if_neg hp0] at h ⊢
    exact h

lemma lowerPhase_mono (row : List Nat) (total coeff : Nat) (alpha : ℚ) (sU : Nat)
    (fuel fuel' : Nat) (res : Int) (hle : fuel ≤ fuel')
    (h : lowerPhase row total coeff alpha sU fuel = some res) :
    lowerPhase row total coeff alpha sU fuel' = some res := by
  by_cases hq0 : pLess total sU > alpha
  · simp only [lowerPhase, if_pos hq0] at h ⊢
    cases hL : lowerLoop row total alpha fuel (coeff : Int) (pLess total sU) with
    | none => rw [hL] at h; simp at h
    | some c =>
      rw [hL] at h
      rw [lowerLoop_mono row total alpha fuel fuel' _ _ c hle hL]
      exact h
  · simp only [lowerPhase, if_neg hq0] at h ⊢
    exact h

lemma ncRangeDate_mono (row : List Nat) (coeff : Nat) (alpha : ℚ)
    (fuel fuel' : Nat) (res : Int × Int) (hle : fuel ≤ fuel')
    (h : ncRangeDate row coeff alpha fuel = some res) :
    ncRangeDate row coeff alpha fuel' = some res := by
  simp only [ncRangeDate] at h
  by_cases ht : row.sum > 0
  · rw [if_pos ht] at h
    split at h
    · exact absurd h (by simp)
    · rename_i x coeffp successes hU
      split at h
      · exact absurd h (by simp)
      · rename_i y coeffq hL
        simp only [Option.some.injEq] at h
        subst h
        have hU2 := upperPhase_mono row row.sum coeff alpha fuel fuel' _ hle hU
        have hL2 := lowerPhase_mono row row.sum coeff alpha successes fuel fuel' _ hle hL
        simp [ncRangeDate, ht, hU2, hL2]
  · rw [if_neg ht] at h
    simp only [ncRangeDate, if_neg ht]
    exact h

lemma find_nc_range_mono :
    ∀ (rows : List (List Nat)) (ncs : List Nat) (alpha : ℚ) (fuel fuel' : Nat)
      (res : List (Int × Int)), fuel ≤ fuel' →
    find_nc_range rows ncs alpha fuel = some res →
    find_nc_range rows ncs alpha fuel' = some res := by
  intro rows
  induction rows with
  | nil => intro ncs alpha fuel fuel' res hle h; simpa [find_nc_range] using h
  | cons row rest ih =>
    intro ncs alpha fuel fuel' res hle h
    cases ncs with
    | nil => simp [find_nc_range] at h
    | cons c cs =>
      simp only [find_nc_range] at h ⊢
      cases hD : ncRangeDate row c alpha fuel with
      | none => rw [hD] at h; simp at h
      | some r =>
        cases hR : find_nc_range rest cs alpha fuel with
        | none => rw [hD, hR] at h; simp at h
        | some rs =>
          rw [hD, hR] at h
          rw [ncRangeDate_mono row c alpha fuel fuel' r hle hD,
            ih cs alpha fuel fuel' rs hle hR]
          exact h

lemma upperLoop_term (row : List Nat) (alpha : ℚ)
    (ha : (1 : ℚ)/2^row.sum ≤ alpha) :
    ∀ (d : Nat) (cp : Int), (row.length : Int) ≤ cp + d →
    ∃ res, upperLoop row row.sum alpha d cp (topSum row cp)
      (pGreater row.sum (topSum row cp)) = some res := by
  intro d
  induction d with
  | zero =>
    intro cp hlen
    have h1 : topSum row cp = row.sum := topSum_of_le row cp (by omega)
    have h2 : ¬ pGreater row.sum (topSum row cp) > alpha := by
      rw [h1, pGreater_full]
      exact not_lt.mpr ha
    exact ⟨(cp, topSum row cp), by simp [upperLoop, h2]⟩
  | succ d ih =>
    intro cp hlen
    by_cases hp : pGreater row.sum (topSum row cp) > alpha
    · obtain ⟨res, hres⟩ := ih (cp + 1) (by omega)
      exact ⟨res, by simp only [upperLoop, if_pos hp]; exact hres⟩
    · exact ⟨(cp, topSum row cp), by simp [upperLoop, hp]⟩

lemma lowerLoop_term (row : List Nat) (alpha : ℚ)
    (ha : (1 : ℚ)/2^row.sum ≤ alpha) :
    ∀ (d : Nat) (cq : Int), cq ≤ d →
    ∃ res, lowerLoop row row.sum alpha d cq
      (pLess row.sum (topSum row cq)) = some res := by
  intro d
  induction d with
  | zero =>
    intro cq hcq
    have h1 : topSum row cq = 0 := topSum_nonpos row cq (by omega)
    have h2 : ¬ pLess row.sum (topSum row cq) > alpha := by
      rw [h1, pLess_bottom]
      exact not_lt.mpr ha
    exact ⟨cq, by simp [lowerLoop, h2]⟩
  | succ d ih =>
    intro cq hcq
    by_cases hq : pLess row.sum (topSum row cq) > alpha
    · obtain ⟨res, hres⟩ := ih (cq - 1) (by omega)
      exact ⟨res, by simp only [lowerLoop, if_pos hq]; exact hres⟩
    · exact ⟨cq, by simp [lowerLoop, hq]⟩

lemma upperPhase_term (row : List Nat) (coeff : Nat) (alpha : ℚ)
    (ha : (1 : ℚ)/2^row.sum ≤ alpha) (fuel : Nat)
    (hfuel : (row.length : Int) ≤ (coeff : Int) + fuel) :
    ∃ res, upperPhase row row.sum coeff alpha fuel = some res := by
  by_cases hp0 : pGreater row.sum (topSum row (coeff : Int)) > alpha
  · obtain ⟨res, hres⟩ := upperLoop_term row alpha ha fuel (coeff : Int) hfuel
    exact ⟨(res.1 - 1, res.2), by simp only [upperPhase, if_pos hp0]; rw [hres]; rfl⟩
  · exact ⟨((coeff : Int), topSum row (coeff : Int)), by simp [upperPhase, hp0]⟩

lemma lowerPhase_term (row : List Nat) (coeff : Nat) (alpha : ℚ) (sU : Nat)
    (ha : (1 : ℚ)/2^row.sum ≤ alpha) (fuel : Nat) (hfuel : coeff + 1 ≤ fuel) :
    ∃ res, lowerPhase row row.sum coeff alpha sU fuel = some res := by
  by_cases hq0 : pLess row.sum sU > alpha
  · obtain ⟨f, rfl⟩ : ∃ f, fuel = f + 1 := ⟨fuel - 1, by omega⟩
    obtain ⟨res, hres⟩ := lowerLoop_term row alpha ha f ((coeff : Int) - 1) (by omega)
    refine ⟨res + 1, ?_⟩
    simp only [lowerPhase, if_pos hq0, lowerLoop]
    rw [hres]
    rfl
  · exact ⟨(coeff : Int), by simp [lowerPhase, hq0]⟩

lemma ncRangeDate_term (row : List Nat) (coeff : Nat) (alpha : ℚ)
    (ha : row.sum = 0 ∨ (1 : ℚ)/2^row.sum ≤ alpha) :
    ∃ fuel res, ncRangeDate row coeff alpha fuel = some res := by
  by_cases ht : row.sum > 0
  · have ha' : (1 : ℚ)/2^row.sum ≤ alpha := by
      rcases ha with h0 | h1
      · omega
      · exact h1
    obtain ⟨⟨u, s⟩, hU⟩ := upperPhase_term row coeff alpha ha' (row.length + coeff + 2)
      (by push_cast; omega)
    obtain ⟨lo, hL⟩ := lowerPhase_term row coeff alpha s ha' (row.length + coeff + 2)
      (by omega)
    exact ⟨row.length + coeff + 2, (lo, u), by simp [ncRangeDate, ht, hU, hL]⟩
  · exact ⟨0, ((coeff : Int), (coeff : Int)), by simp [ncRangeDate, ht]⟩

/-- On the one-date, one-entity table [[1]] the upper-bound loop never
meets its exit condition: the p-value is 1/2 at every candidate, so every
fuel budget is exhausted. -/
lemma upperLoop_stuck : ∀ (fuel : Nat) (c : Int), 1 ≤ c →
    upperLoop [1] 1 (1/20) fuel c (topSum [1] c) (pGreater 1 (topSum [1] c)) = none := by
  have htop : ∀ c : Int, 1 ≤ c → topSum [1] c = 1 := by
    intro c hc
    rw [topSum, show sortDesc [1] = [1] from rfl,
      show c.toNat = (c.toNat - 1) + 1 from by omega]
    simp
  have hp : pGreater 1 1 > (1 : ℚ)/20 := by
    rw [pGreater, show tailCount 1 1 = 1 from rfl]
    norm_num
  intro fuel
  induction fuel with
  | zero =>
    intro c hc
    rw [htop c hc]
    simp only [upperLoop, if_pos hp]
  | succ fuel ih =>
    intro c hc
    rw [htop c hc]
    simp only [upperLoop, if_pos hp]
    exact ih (c + 1) (by omega)

/-- Claim C4 counterexample: on the table with the single row [1] (one
date, one entity, one block) and the default alpha, find_nc_range never
returns, whatever the iteration budget: the source's upper-bound while
loop runs forever there. -/
theorem claim_C4_counterexample :
    ¬ ∃ (fuel : Nat) (rs : List (Int × Int)),
      find_nc_range [[1]] (compute_nakamoto_coefficients [[1]]) (1/20) fuel = some rs := by
  rintro ⟨fuel, rs, h⟩
  have hc1 : compute_nakamoto_coefficient [1] = 1 := by
    norm_num [compute_nakamoto_coefficient, ncLoop, show sortDesc [1] = [1] from rfl]
  have hp0 : pGreater 1 (topSum [1] ((1 : Nat) : Int)) > (1 : ℚ)/20 := by
    rw [show topSum [1] ((1 : Nat) : Int) = 1 from rfl, pGreater,
      show tailCount 1 1 = 1 from rfl]
    norm_num
  have hU : upperPhase [1] 1 1 (1/20) fuel = none := by
    simp only [upperPhase, if_pos hp0]
    rw [upperLoop_stuck fuel ((1 : Nat) : Int) (by omega)]
    rfl
  have hD : ncRangeDate [1] 1 (1/20) fuel = none := by
    simp only [ncRangeDate, List.sum_cons, List.sum_nil, Nat.add_zero]
    rw [if_pos Nat.one_pos, hU]
  rw [show compute_nakamoto_coefficients [[1]] = [1] from by
    simp [compute_nakamoto_coefficients, hc1]] at h
  simp only [find_nc_range, hD] at h
  simp at h

/-- Claim C4 as amended: the per-date search terminates whenever the
date's total `n` is zero or satisfies (1/2)^n ≤ alpha (the minimum
achievable p-value of either one-sided test); without that condition it
can run forever, as the counterexample shows. -/
theorem claim_C4_amended (rows : List (List Nat)) (alpha : ℚ)
    (h : ∀ row ∈ rows, row.sum = 0 ∨ (1 : ℚ)/2^row.sum ≤ alpha) :
    ∃ fuel rs, find_nc_range rows (compute_nakamoto_coefficients rows) alpha fuel = some rs := by
  induction rows with
  | nil => exact ⟨0, [], rfl⟩
  | cons row rest ih =>
    obtain ⟨f1, r1, h1⟩ := ncRangeDate_term row (compute_nakamoto_coefficient row) alpha
      (h row (by simp))
    obtain ⟨f2, rs2, h2⟩ := ih (fun r hr => h r (by simp [hr]))
    refine ⟨max f1 f2, r1 :: rs2, ?_⟩
    have h1m := ncRangeDate_mono row (compute_nakamoto_coefficient row) alpha f1
      (max f1 f2) r1 (le_max_left f1 f2) h1
    have h2m := find_nc_range_mono rest (compute_nakamoto_coefficients rest) alpha f2
      (max f1 f2) rs2 (le_max_right f1 f2) h2
    simp only [compute_nakamoto_coefficients, List.map_cons, find_nc_range]
    rw [show rest.map compute_nakamoto_coefficient = compute_nakamoto_coefficients rest
      from rfl, h1m, h2m]

/-- Claim C4 amended witness: a one-date table with total 5, where
(1/2)^5 = 1/32 ≤ 1/20, so the search terminates. -/
theorem claim_C4_amended_witness :
    (∀ row ∈ [[5]], List.sum row = 0 ∨ (1 : ℚ)/2^(List.sum row) ≤ 1/20) ∧
    ∃ fuel rs, find_nc_range [[5]] (compute_nakamoto_coefficients [[5]]) (1/20) fuel = some rs := by
  have hyp : ∀ row ∈ [[5]], List.sum row = 0 ∨ (1 : ℚ)/2^(List.sum row) ≤ 1/20 := by
    intro row hrow
    simp only [List.mem_singleton] at hrow
    subst hrow
    right
    norm_num
  exact ⟨hyp, claim_C4_amended [[5]] (1/20) hyp⟩

/-- Claim C5 as amended: for a positive-total date, the `k` fed to the
lower-bound search's initial 'less' test (the `successes` value the upper
phase hands over) equals the point estimate's successes only when the
initial 'greater' test already passed; when the upper loop iterated it is
the top-(upper+1) cumulative count from the loop's final test. -/
theorem claim_C5_amended (row : List Nat) (coeff : Nat) (alpha : ℚ) (fuel : Nat)
    (u : Int) (s : Nat) (_htot : 0 < row.sum)
    (h : upperPhase row row.sum coeff alpha fuel = some (u, s)) :
    s = topSum row
      (if pGreater row.sum (topSum row (coeff : Int)) > alpha then u + 1 else (coeff : Int)) :=
  (upperPhase_some row row.sum coeff alpha fuel u s h).2

/-! ### Concrete evaluation of the search on the row [3, 2, 2] -/

lemma nc_322 : compute_nakamoto_coefficient [3, 2, 2] = 2 := by
  norm_num [compute_nakamoto_coefficient, ncLoop, show sortDesc [3, 2, 2] = [3, 2, 2] from rfl]

lemma upperPhase_322 : upperPhase [3, 2, 2] 7 2 (1/20) 3 = some (2, 7) := by
  norm_num [upperPhase, upperLoop, pGreater,
    show topSum [3, 2, 2] ((2 : Nat) : Int) = 5 from rfl,
    show topSum [3, 2, 2] (2 : Int) = 5 from rfl,
    show topSum [3, 2, 2] (3 : Int) = 7 from rfl,
    show tailCount 7 5 = 29 from by decide,
    show tailCount 7 7 = 1 from by decide]

lemma lowerPhase_322 : lowerPhase [3, 2, 2] 7 2 (1/20) 7 3 = some 1 := by
  norm_num [lowerPhase, lowerLoop, pLess,
    show topSum [3, 2, 2] (1 : Int) = 3 from rfl,
    show topSum [3, 2, 2] (0 : Int) = 0 from rfl,
    show headCount 7 7 = 128 from by decide,
    show headCount 7 3 = 64 from by decide,
    show headCount 7 0 = 1 from by decide]

lemma ncRangeDate_322 : ncRangeDate [3, 2, 2] 2 (1/20) 3 = some (1, 2) := by
  simp only [ncRangeDate, show (([3, 2, 2] : List Nat).sum) = 7 from rfl]
  rw [if_pos (by norm_num : (7 : Nat) > 0)]
  simp only [upperPhase_322, lowerPhase_322]

lemma find_nc_range_322 :
    find_nc_range [[3, 2, 2]] (compute_nakamoto_coefficients [[3, 2, 2]]) (1/20) 3 =
      some [((1 : Int), (2 : Int))] := by
  rw [show compute_nakamoto_coefficients [[3, 2, 2]] = [2] from by
    simp [compute_nakamoto_coefficients, nc_322]]
  simp only [find_nc_range, ncRangeDate_322]

/-- Claim C1 witness: the one-date table [[3, 2, 2]] with alpha = 1/20,
where the range search returns (lower, upper) = (1, 2) around the
coefficient 2. -/
theorem claim_C1_range_brackets_witness :
    find_nc_range [[3, 2, 2]] (compute_nakamoto_coefficients [[3, 2, 2]]) (1/20) 3 =
      some [((1 : Int), (2 : Int))] ∧
    ((([((1 : Int), (2 : Int))] : List (Int × Int)).getD 0 (0, 0)).1 ≤
        (compute_nakamoto_coefficient (([[3, 2, 2]] : List (List Nat)).getD 0 []) : Int) ∧
      (compute_nakamoto_coefficient (([[3, 2, 2]] : List (List Nat)).getD 0 []) : Int) ≤
        (([((1 : Int), (2 : Int))] : List (Int × Int)).getD 0 (0, 0)).2) :=
  ⟨find_nc_range_322,
    claim_C1_range_brackets [[3, 2, 2]] (1/20) 3 [((1 : Int), (2 : Int))]
      find_nc_range_322 0 (by norm_num)⟩

/-- Claim C5 counterexample: on the date [3, 2, 2] (total 7, point
estimate 2 with successes 5) the initial 'greater' test fails, the upper
loop runs, and the `successes` value handed to the lower-bound search's
initial 'less' test is 7, not the point estimate's 5. -/
theorem claim_C5_counterexample :
    compute_nakamoto_coefficient [3, 2, 2] = 2 ∧
    upperPhase [3, 2, 2] (([3, 2, 2] : List Nat).sum) 2 (1/20) 3 = some (2, 7) ∧
    topSum [3, 2, 2] ((2 : Nat) : Int) = 5 ∧ (7 : Nat) ≠ 5 :=
  ⟨nc_322, upperPhase_322, rfl, by norm_num⟩

/-- Claim C5 amended witness, at the same date [3, 2, 2]: the handed-over
successes value 7 is the top-(upper+1) sum, the upper loop having
iterated. -/
theorem claim_C5_amended_witness :
    (0 < ([3, 2, 2] : List Nat).sum) ∧
    upperPhase [3, 2, 2] (([3, 2, 2] : List Nat).sum) 2 (1/20) 3 = some (2, 7) ∧
    (7 : Nat) = topSum [3, 2, 2]
      (if pGreater ([3, 2, 2] : List Nat).sum (topSum [3, 2, 2] ((2 : Nat) : Int)) > 1/20
        then (2 : Int) + 1 else ((2 : Nat) : Int)) :=
  ⟨by norm_num, upperPhase_322,
    claim_C5_amended [3, 2, 2] 2 (1/20) 3 2 7 (by norm_num) upperPhase_322⟩

/-! ### Temporal aggregation -/

lemma zip_pairwise_le (dates : List Nat) :
    ∀ (rows : List (List Nat)), dates.Pairwise (fun a b => a < b) →
    (dates.zip rows).Pairwise (fun a b : Nat × List Nat => a.1 ≤ b.1) := by
  induction dates with
  | nil => intro rows h; simp
  | cons d ds ih =>
    intro rows h
    cases rows with
    | nil => simp
    | cons r rs =>
      rw [List.pairwise_cons] at h
      rw [List.zip_cons_cons, List.pairwise_cons]
      refine ⟨?_, ih rs h.2⟩
      intro p hp
      exact le_of_lt (h.1 p.1 (List.of_mem_zip hp).1)

lemma granularity_sort_eq (t : CountTable)
    (hs : List.Sorted (fun a b : Nat => a < b) t.dates) :
    (t.dates.zip t.rows).insertionSort (fun a b => a.1 ≤ b.1) = t.dates.zip t.rows :=
  List.Sorted.insertionSort_eq (zip_pairwise_le t.dates t.rows hs)

lemma filter_range_interval (a b : Nat) :
    ∀ n, (List.range n).filter (fun j => decide (a ≤ j) && decide (j < b)) =
      List.range' a (min b n - a) := by
  intro n
  induction n with
  | zero => simp
  | succ n ih =>
    rw [List.range_succ, List.filter_append, ih]
    by_cases hcase : a ≤ n ∧ n < b
    · have h1 : (List.filter (fun j => decide (a ≤ j) && decide (j < b)) [n]) = [n] := by
        simp [hcase.1, hcase.2]
      rw [h1, show min b (n + 1) - a = (min b n - a) + 1 from by omega, List.range'_concat]
      congr 2
      omega
    · have h1 : (List.filter (fun j => decide (a ≤ j) && decide (j < b)) [n]) = [] := by
        simp only [List.filter_cons, List.filter_nil]
        rw [if_neg]
        simp only [Bool.and_eq_true, decide_eq_true_eq]
        exact hcase
      rw [h1, List.append_nil]
      congr 1
      omega

lemma map_getD_range' (l : List (List Nat)) :
    ∀ (c a : Nat), a + c ≤ l.length →
      (List.range' a c).map (fun j => l.getD j []) = (l.drop a).take c := by
  intro c
  induction c with
  | zero => intro a h; simp
  | succ c ih =>
    intro a h
    rw [List.range'_succ, List.map_cons, ih (a + 1) (by omega),
      List.drop_eq_getElem_cons (by omega : a < l.length), List.take_succ_cons]
    congr 1
    exact List.getD_eq_getElem l [] (by omega : a < l.length)

/-- Python's slice, reread as the documented index-range form: the
elements whose position lies in the resolved half-open interval. -/
lemma pySlice_eq_map (l : List (List Nat)) (s e : Int) :
    pySlice l s e =
      ((List.range l.length).filter
        (fun j => decide (pyResolve l.length s ≤ j) && decide (j < pyResolve l.length e))).map
        (fun j => l.getD j []) := by
  have he : pyResolve l.length e ≤ l.length := by
    rw [pyResolve]
    split <;> omega
  rw [pySlice, filter_range_interval,
    show min (pyResolve l.length e) l.length = pyResolve l.length e from by omega]
  by_cases hse : pyResolve l.length s ≤ pyResolve l.length e
  · rw [map_getD_range' l (pyResolve l.length e - pyResolve l.length s)
      (pyResolve l.length s) (by omega)]
  · rw [show pyResolve l.length e - pyResolve l.length s = 0 from by omega]
    simp

lemma pyResolve_le_iff (L : Nat) (x : Int) (j : Nat) (hj : j < L) :
    (pyResolve L x ≤ j) ↔ ((if x < 0 then x + L else x) ≤ (j : Int)) := by
  rw [pyResolve]
  by_cases hx : x < 0
  · rw [if_pos hx, if_pos hx]
    omega
  · rw [if_neg hx, if_neg hx]
    omega

lemma lt_pyResolve_iff (L : Nat) (x : Int) (hx : 0 ≤ x) (j : Nat) (hj : j < L) :
    (j < pyResolve L x) ↔ ((j : Int) < x) := by
  rw [pyResolve, if_neg (by omega)]
  omega

/-- Claim C8: each output row of the aggregator is the element-wise sum
of the input rows whose index lies in the half-open range
[i - step, i + (num - step)), the start counting from the end of the
sequence when i - step is negative (the source's slicing semantics),
exactly as specWindowSum states it. -/
theorem claim_C8_window (t : CountTable) (num i : Nat)
    (hs : List.Sorted (fun a b : Nat => a < b) t.dates)
    (hlen : t.dates.length = t.rows.length)
    (_hnum : 1 ≤ num) (hi : i < t.rows.length) :
    (granularity t num).rows.getD i [] = specWindowSum t.rows num i := by
  have hpairs := granularity_sort_eq t hs
  have hlister : ((t.dates.zip t.rows).insertionSort
      (fun a b : Nat × List Nat => a.1 ≤ b.1)).map Prod.snd = t.rows := by
    rw [hpairs]
    exact List.map_snd_zip t.dates t.rows (le_of_eq hlen.symm)
  simp only [granularity, hlister]
  rw [List.getD_eq_getElem _ _ (by simpa using hi), List.getElem_map, List.getElem_range,
    pySlice_eq_map, specWindowSum]
  have hstop : (0 : Int) ≤ (i : Int) + ((num : Int) - ((num / 2 : Nat) : Int)) := by
    have := Nat.div_le_self num 2
    omega
  have hfilter : ∀ j ∈ List.range t.rows.length,
      (decide (pyResolve t.rows.length ((i : Int) - ((num / 2 : Nat) : Int)) ≤ j) &&
        decide (j < pyResolve t.rows.length ((i : Int) + ((num : Int) - ((num / 2 : Nat) : Int))))) =
      (decide ((if (i : Int) - ((num / 2 : Nat) : Int) < 0
          then (i : Int) - ((num / 2 : Nat) : Int) + (t.rows.length : Int)
          else (i : Int) - ((num / 2 : Nat) : Int)) ≤ (j : Int)) &&
        decide ((j : Int) < (i : Int) + ((num : Int) - ((num / 2 : Nat) : Int)))) := by
    intro j hj
    rw [List.mem_range] at hj
    rw [decide_eq_decide.mpr (pyResolve_le_iff t.rows.length _ j hj),
      decide_eq_decide.mpr (lt_pyResolve_iff t.rows.length _ hstop j hj)]
  rw [List.filter_congr hfilter]

/-- Claim C8 witness: four dates, window 3, index 0: the slice start
resolves to position 3 from the end, which lies past the stop index, so
the output row is the empty element-wise sum (the degenerate wrap-around
artifact at the start of the series). -/
theorem claim_C8_window_witness :
    List.Sorted (fun a b : Nat => a < b) ([0, 1, 2, 3] : List Nat) ∧
    (granularity ⟨["e"], [0, 1, 2, 3], [[1], [2], [3], [4]]⟩ 3).rows.getD 0 [] =
      specWindowSum [[1], [2], [3], [4]] 3 0 :=
  ⟨by decide,
    claim_C8_window ⟨["e"], [0, 1, 2, 3], [[1], [2], [3], [4]]⟩ 3 0 (by decide) rfl
      (by norm_num) (by norm_num)⟩

/-- Claim C9: the aggregator with window size 1 is the identity on a
count table (same columns, same dates, same rows). -/
theorem claim_C9_window_one_identity (t : CountTable)
    (hs : List.Sorted (fun a b : Nat => a < b) t.dates)
    (hlen : t.dates.length = t.rows.length) :
    granularity t 1 = t := by
  have hpairs := granularity_sort_eq t hs
  obtain ⟨cols, dates, rows⟩ := t
  simp only [granularity, hpairs] at *
  have hfst : (dates.zip rows).map Prod.fst = dates :=
    List.map_fst_zip dates rows (le_of_eq hlen)
  have hsnd : (dates.zip rows).map Prod.snd = rows :=
    List.map_snd_zip dates rows (le_of_eq hlen.symm)
  rw [CountTable.mk.injEq]
  refine ⟨rfl, hfst, ?_⟩
  rw [hsnd]
  apply List.ext_getElem
  · simp
  · intro n h1 h2
    simp only [List.getElem_map, List.getElem_range]
    have h2' : n < rows.length := by simpa using h2
    have hres1 : pyResolve rows.length ((n : Int) - (((1 : Nat) / 2 : Nat) : Int)) = n := by
      rw [pyResolve, if_neg (by omega)]
      omega
    have hres2 : pyResolve rows.length
        ((n : Int) + (((1 : Nat) : Int) - (((1 : Nat) / 2 : Nat) : Int))) = n + 1 := by
      rw [pyResolve, if_neg (by omega)]
      omega
    rw [pySlice, hres1, hres2, show n + 1 - n = 1 from by omega,
      List.drop_eq_getElem_cons h2', List.take_succ_cons, List.take_zero]
    rfl

/-- Claim C9 witness: a concrete two-date table is returned unchanged by
the window-1 aggregator. -/
theorem claim_C9_window_one_identity_witness :
    List.Sorted (fun a b : Nat => a < b) ([0, 1] : List Nat) ∧
    granularity ⟨["a", "b"], [0, 1], [[1, 2], [3, 4]]⟩ 1 =
      ⟨["a", "b"], [0, 1], [[1, 2], [3, 4]]⟩ :=
  ⟨by decide,
    claim_C9_window_one_identity ⟨["a", "b"], [0, 1], [[1, 2], [3, 4]]⟩ (by decide) rfl⟩

end NCStats
